import Mathlib

/-!
Verification of the engagement-extraction core of `src/app.py`
(my-engagement-scraper).

The two pure components, `parse_num` (Numeric Normalizer) and
`extract_from_dom_payload` (Engagement Resolver), are translated into Lean
definitions below.  Python floats are modelled exactly as IEEE-754 binary64
values (`Dbl`): a finite nonnegative double is a significand `n` and an
exponent `e`, standing for `n * 2 ^ (e - 52)`, or `+inf`.  `roundPos`
performs correct rounding (round to nearest, ties to even, subnormal range
clamped at `2 ^ (-1022)`, overflow to `inf` at `2 ^ 1024`) of an exact
positive fraction, which is the behaviour of CPython's `float(str)` and of
binary64 multiplication applied to exact inputs.  `int()` applied to an
infinite float raises `OverflowError`, modelled by `Option` (`none` = the
call raises).  Python's `str.strip`, `str.lower` and the regex class `\s`
are modelled on the ASCII range, the only range the program exercises.
-/

set_option maxRecDepth 40000
set_option exponentiation.threshold 4000

namespace Scraper

/-- ASCII model of Python's whitespace (for `str.strip` and the regex `\s`). -/
def pySpace (c : Char) : Bool :=
  c = ' ' || c = '\t' || c = '\n' || c = '\r' || c = '\x0b' || c = '\x0c'

/-- Model of Python `str.strip()`: drop whitespace from both ends. -/
def pyStrip (l : List Char) : List Char :=
  ((l.dropWhile pySpace).reverse.dropWhile pySpace).reverse

/-- Numeric value of a decimal digit character. -/
def digitVal (c : Char) : ℕ := c.toNat - 48

/-- Value of a big-endian list of decimal digit characters (Python `int(s)`). -/
def natOfDigitChars (l : List Char) : ℕ :=
  l.foldl (fun a c => 10 * a + digitVal c) 0

/-- An IEEE-754 binary64 value as reachable in `parse_num`: a finite
nonnegative value `n * 2 ^ (e - 52)` or `+inf`. -/
inductive Dbl where
  | finite (n : ℕ) (e : ℤ)
  | inf
  deriving DecidableEq, Repr

/-- Fuelled binary logarithm: `log2go f m = min ⌊log₂ m⌋ f` (with value `0`
for `m < 2`).  Structural in the fuel so that it evaluates in the kernel. -/
def log2go : ℕ → ℕ → ℕ
  | 0, _ => 0
  | f + 1, m => if m < 2 then 0 else log2go f (m / 2) + 1

/-- Binary logarithm with fuel 4000, exact for every argument `< 2 ^ 4000`
(inputs needing more than a thousand digits overflow binary64 anyway). -/
def myLog2 (m : ℕ) : ℕ := log2go 4000 m

/-- Round a nonnegative fraction `a / b` (with `b ≠ 0`) to an integer,
ties to even. -/
def rhe (a b : ℕ) : ℕ :=
  let f := a / b
  let r := a % b
  if 2 * r < b then f
  else if b < 2 * r then f + 1
  else if f % 2 = 0 then f else f + 1

/-- Correctly round the positive fraction `num / den` to binary64. -/
def roundPos (num den : ℕ) : Dbl :=
  let a := myLog2 num
  let b := myLog2 den
  let e : ℤ := if den * 2 ^ a ≤ num * 2 ^ b then (a : ℤ) - b else ((a : ℤ) - b) - 1
  let e' := max e (-1022)
  let num' := num * 2 ^ Int.toNat ((52 : ℤ) - e')
  let den' := den * 2 ^ Int.toNat (e' - (52 : ℤ))
  let n := rhe num' den'
  if 2 ^ (1024 + Int.toNat ((52 : ℤ) - e')) ≤ n * 2 ^ Int.toNat (e' - (52 : ℤ)) then
    .inf
  else .finite n e'

/-- CPython `float(s)` on a decimal string of value `M / D`: correctly
rounded conversion, `0.0` for `M = 0`. -/
def roundDec (M D : ℕ) : Dbl :=
  if M = 0 then .finite 0 0 else roundPos M D

/-- Binary64 multiplication by a positive natural (`num *= 1_000` /
`num *= 1_000_000` in `parse_num`): exact product, correctly re-rounded. -/
def dblMulNat (d : Dbl) (k : ℕ) : Dbl :=
  match d with
  | .inf => .inf
  | .finite n e =>
    if n * k = 0 then .finite 0 0
    else roundPos (n * k * 2 ^ Int.toNat (e - (52 : ℤ))) (2 ^ Int.toNat ((52 : ℤ) - e))

/-- Python `int()` on a nonnegative float: truncation (= floor) on a finite
value, `OverflowError` (= `none`) on `inf`. -/
def dblToInt (d : Dbl) : Option ℤ :=
  match d with
  | .inf => none
  | .finite n e =>
    some ((n * 2 ^ Int.toNat (e - (52 : ℤ)) / 2 ^ Int.toNat ((52 : ℤ) - e) : ℕ) : ℤ)

/-- Characters allowed in the regex mantissa `[0-9]*\.?[0-9]+`. -/
def isDigitDot (c : Char) : Bool := c.isDigit || c = '.'

/-- The regex character class `[0-9.,KkMm]`. -/
def isClassChar (c : Char) : Bool :=
  c.isDigit || c = '.' || c = ',' || c = 'K' || c = 'k' || c = 'M' || c = 'm'

/-- Whether the maximal digits-and-dots prefix `P` is a word of the mantissa
language `[0-9]*\.?[0-9]+` (a nonempty digit run, or digits, one dot, then a
nonempty digit run). -/
def mantissaOk (P : List Char) : Bool :=
  match P.dropWhile (fun c => c ≠ '.') with
  | [] => !P.isEmpty
  | _ :: fp => !fp.isEmpty && fp.all Char.isDigit

/-- `raw.strip().replace(",", "").lower()` from `parse_num`. -/
def pyClean (s : String) : List Char :=
  ((pyStrip s.toList).filter (fun c => c ≠ ',')).map Char.toLower

/-- Model of `parse_num` (src/app.py lines 8-26).  The anchored match of
`^([0-9]*\.?[0-9]+)\s*([km])?$` succeeds exactly when the maximal
digits-and-dots prefix is a valid mantissa and the remainder is whitespace
followed by at most one `k`/`m`.  `none` models the `OverflowError` raised
by `int()` when the float value has overflowed to infinity. -/
def parse_num (s : String) : Option ℤ :=
  let raw := pyClean s
  let P := raw.takeWhile isDigitDot
  let rest := (raw.dropWhile isDigitDot).dropWhile pySpace
  if mantissaOk P = true ∧ (rest = [] ∨ rest = ['k'] ∨ rest = ['m']) then
    let fp := (P.dropWhile (fun c => c ≠ '.')).tail
    let M := natOfDigitChars (P.filter (fun c => c ≠ '.'))
    let d := roundDec M (10 ^ fp.length)
    let d' := if rest = ['k'] then dblMulNat d 1000
              else if rest = ['m'] then dblMulNat d 1000000 else d
    dblToInt d'
  else
    let ds := raw.filter Char.isDigit
    some (if ds.isEmpty then 0 else (natOfDigitChars ds : ℤ))

/-- Case-insensitive comparison of a text fragment with a (lowercase) word. -/
def lowerEq (l : List Char) (w : List Char) : Bool := l.map Char.toLower == w

/-- One attempt of `re.search(r":\s*([0-9.,KkMm]+)\s+people", label, re.I)`
at a fixed start position.  Because the character class, `\s` and `people`
are pairwise disjoint, the backtracking regex engine behaves exactly like
this greedy scan. -/
def peopleLoop : ℕ → List Char → Option (List Char)
  | 0, _ => none
  | _, [] => none
  | fuel + 1, c :: rest =>
    if c = ':' then
      let t1 := rest.dropWhile pySpace
      let g := t1.takeWhile isClassChar
      let t2 := t1.dropWhile isClassChar
      let sp := t2.takeWhile pySpace
      let t3 := t2.dropWhile pySpace
      if g ≠ [] ∧ sp ≠ [] ∧ lowerEq (t3.take 6) ['p', 'e', 'o', 'p', 'l', 'e'] = true
      then some g
      else peopleLoop fuel rest
    else peopleLoop fuel rest

/-- First match (group 1) of the per-reaction label pattern, or `none`. -/
def searchPeople (s : List Char) : Option (List Char) := peopleLoop s.length s

/-- One attempt of the pattern `([0-9][0-9.,KkMm]*)\s+<word>s?` at a fixed
start position; on success returns group 1 and the text remaining after the
match (where `re.finditer` resumes). -/
def tryCount (w : List Char) (s : List Char) : Option (List Char × List Char) :=
  match s with
  | [] => none
  | c :: rest =>
    if c.isDigit then
      let g := c :: rest.takeWhile isClassChar
      let t2 := rest.dropWhile isClassChar
      let sp := t2.takeWhile pySpace
      let t3 := t2.dropWhile pySpace
      if sp ≠ [] ∧ lowerEq (t3.take w.length) w = true then
        let t4 := t3.drop w.length
        some (g, match t4 with
                 | [] => []
                 | c' :: t5 => if c'.toLower = 's' then t5 else c' :: t5)
      else none
    else none

/-- Leftmost, non-overlapping scan of
`re.finditer(r"([0-9][0-9.,KkMm]*)\s+<word>s?", text, re.I)`:
the list of all group-1 captures. -/
def findLoop (w : List Char) : ℕ → List Char → List (List Char)
  | 0, _ => []
  | _, [] => []
  | fuel + 1, c :: rest =>
    match tryCount w (c :: rest) with
    | some (g, rem) => g :: findLoop w fuel rem
    | none => findLoop w fuel rest

/-- All group-1 captures of the count-followed-by-word pattern in `s`. -/
def findAll (w : List Char) (s : List Char) : List (List Char) :=
  findLoop w s.length s

/-- The JS-evaluated payload consumed by `extract_from_dom_payload`.
`none` models a key that is absent or `None` in the Python dict. -/
structure Payload where
  total_reactions_candidates : Option (List String)
  total_reactions_text : Option String
  reaction_labels : Option (List String)
  comment_texts : Option (List String)
  share_texts : Option (List String)
  full_text : Option String
  deriving DecidableEq, Repr

/-- The resolver's output record (likes / comments / shares / total). -/
structure Metrics where
  likes : ℤ
  comments : ℤ
  shares : ℤ
  total : ℤ
  deriving DecidableEq, Repr

/-- `payload.get(key) or []`: an absent / `None` / empty value becomes `[]`. -/
def pyGetList (o : Option (List String)) : List String := o.getD []

/-- `payload.get(key) or ""`. -/
def pyGetStr (o : Option String) : String := o.getD ""

/-- One iteration of the "All reactions" loop (src/app.py lines 42-45). -/
def aggStep (v acc : ℤ) : ℤ :=
  if 0 < v ∧ v < 1000000 ∧ acc < v then v else acc

/-- The "All reactions" candidate loop: `parse_num` every candidate (an
`OverflowError` anywhere aborts), keep the largest inRange value. -/
def aggLoop : List String → ℤ → Option ℤ
  | [], acc => some acc
  | c :: cs, acc =>
    match parse_num c with
    | none => none
    | some v => aggLoop cs (aggStep v acc)

/-- The per-reaction breakdown loop (src/app.py lines 48-55): labels with no
match are skipped, matched counts are normalized and summed. -/
def sumLoop : List String → ℤ → Option ℤ
  | [], acc => some acc
  | l :: ls, acc =>
    match searchPeople l.toList with
    | none => sumLoop ls acc
    | some g =>
      match parse_num (String.mk g) with
      | none => none
      | some v => sumLoop ls (acc + v)

/-- Normalize a list of strings left to right (`none` if any call raises). -/
def parseAll : List String → Option (List ℤ)
  | [] => some []
  | t :: ts =>
    match parse_num t, parseAll ts with
    | some v, some vs => some (v :: vs)
    | _, _ => none

/-- Python `max` over a list of already-computed values, `0` when the list
is empty (in the code the empty case leaves the metric at its initial 0). -/
def pyMaxList : List ℤ → ℤ
  | [] => 0
  | v :: vs => vs.foldl max v

def wordComment : List Char := ['c', 'o', 'm', 'm', 'e', 'n', 't']

def wordShare : List Char := ['s', 'h', 'a', 'r', 'e']

/-- Comments/shares resolution (src/app.py lines 66-87): max over the tagged
texts when present, otherwise max over the free-text regex matches. -/
def resolveTagged (ts : List String) (w : List Char) (ft : String) : Option ℤ :=
  if ts ≠ [] then (parseAll ts).map pyMaxList
  else (parseAll ((findAll w ft.toList).map String.mk)).map pyMaxList

/-- The body of `extract_from_dom_payload` after the candidate list has
been assembled (src/app.py lines 41-96). -/
def extractCore (candidates : List String) (p : Payload) : Option Metrics :=
  (aggLoop candidates 0).bind fun total_reacts_val =>
  (sumLoop (pyGetList p.reaction_labels) 0).bind fun sum_reacts =>
  let likes := if 0 < total_reacts_val then total_reacts_val else sum_reacts
  let full_text := pyGetStr p.full_text
  (resolveTagged (pyGetList p.comment_texts) wordComment full_text).bind fun comments =>
  (resolveTagged (pyGetList p.share_texts) wordShare full_text).bind fun shares =>
  some ⟨likes, comments, shares, likes + comments + shares⟩

/-- Model of `extract_from_dom_payload` (src/app.py lines 29-96): the value
it returns, with `none` when a `parse_num` call raises `OverflowError`.
The candidate list is `total_reactions_candidates or []` with
`total_reactions_text` appended when the latter is non-empty. -/
def extract_from_dom_payload (p : Payload) : Option Metrics :=
  extractCore
    (if pyGetStr p.total_reactions_text ≠ "" then
       pyGetList p.total_reactions_candidates ++ [pyGetStr p.total_reactions_text]
     else pyGetList p.total_reactions_candidates) p

/-- The state of the input payload after `extract_from_dom_payload` returns:
`candidates = payload.get("total_reactions_candidates") or []` aliases the
list stored in the dict whenever that value is a non-empty list, so the
subsequent `candidates.append(primary_text)` (guarded by `if primary_text`)
mutates the payload in place. -/
def extract_after (p : Payload) : Payload :=
  match p.total_reactions_candidates with
  | some l =>
    if l ≠ [] ∧ pyGetStr p.total_reactions_text ≠ "" then
      { p with total_reactions_candidates := some (l ++ [pyGetStr p.total_reactions_text]) }
    else p
  | none => p

/-- The record returned by `scrape_post` to the route handler. -/
structure ScrapeResult where
  likes : ℤ
  comments : ℤ
  shares : ℤ
  total : ℤ
  status : String
  deriving DecidableEq, Repr

/-- Model of `scrape_post` (src/app.py lines 99-230).  The argument is the
outcome of the Playwright collection step: `Except.error e` models the
`try` block raising with message `e`, `Except.ok p` a successfully
collected payload.  The first component is the returned record (`none` when
the resolver itself raises, which happens outside the `try`); the second
counts how many times the resolver was invoked. -/
def scrape_post (r : Except String Payload) : Option ScrapeResult × ℕ :=
  match r with
  | .error e => (some ⟨0, 0, 0, 0, "Browser error: " ++ e⟩, 0)
  | .ok p =>
    match extract_from_dom_payload p with
    | none => (none, 1)
    | some m =>
      (some ⟨m.likes, m.comments, m.shares, m.total,
        if m.total = 0 then "Could not detect engagement" else "OK"⟩, 1)

/-! ### Specification-side definitions

These re-state the resolution policies in the spec's own vocabulary
("largest normalized value", "sum over matching labels", "maximum of the
normalized values"); the theorems below prove that the translated code
computes them. -/

/-- The aggregate candidate list of §4.2: `aggregateReactionCandidates`
with `aggregateReactionPrimary` (when present and non-empty) appended. -/
def specCandidates (p : Payload) : List String :=
  pyGetList p.total_reactions_candidates ++
    (if pyGetStr p.total_reactions_text ≠ "" then [pyGetStr p.total_reactions_text] else [])

/-- Plausibility window of the aggregate strategy: `0 < v < 1_000_000`. -/
def inRange (v : ℤ) : Bool := decide (0 < v ∧ v < 1000000)

/-- `aggregateValue`: the largest inRange normalized candidate (0 if none). -/
def specAggregateValue (p : Payload) : ℤ :=
  ((((specCandidates p).filterMap parse_num).filter inRange).max?).getD 0

/-- The normalized count contributed by one itemized label: the first
`: <count> people` match, normalized (`none` when the label has no match or
normalization raises). -/
def itemVal (l : String) : Option ℤ :=
  (searchPeople l.toList).bind (fun g => parse_num (String.mk g))

/-- `itemizedSum`: the sum of the normalized counts of every itemized label
containing a `: <count> people` phrase. -/
def specItemizedSum (p : Payload) : ℤ :=
  ((pyGetList p.reaction_labels).filterMap itemVal).sum

/-- The comments/shares policy of §4.2: maximum over the tagged texts when
any exist, otherwise maximum over the free-text matches (0 if none). -/
def specTagged (ts : List String) (w : List Char) (ft : String) : ℤ :=
  if ts ≠ [] then ((ts.filterMap parse_num).max?).getD 0
  else ((((findAll w ft.toList).map String.mk).filterMap parse_num).max?).getD 0

/-- Success condition of the anchored regex match in `parse_num`. -/
def regexMatches (s : String) : Prop :=
  mantissaOk ((pyClean s).takeWhile isDigitDot) = true ∧
    (((pyClean s).dropWhile isDigitDot).dropWhile pySpace = [] ∨
     ((pyClean s).dropWhile isDigitDot).dropWhile pySpace = ['k'] ∨
     ((pyClean s).dropWhile isDigitDot).dropWhile pySpace = ['m'])

instance (s : String) : Decidable (regexMatches s) := by
  unfold regexMatches
  infer_instance

/-- The digit-strip fallback value: strip every non-digit character from the
original string and parse the remaining digit run (0 if none). -/
def digitStrip (s : String) : ℤ :=
  let ds := s.toList.filter Char.isDigit
  if ds.isEmpty then 0 else (natOfDigitChars ds : ℤ)

/-! ### Decimal rendering with standard comma grouping (for the round-trip
claim): these definitions construct the claim's input, "the decimal string
rendering of `n` with thousands-separator commas reinserted per standard
grouping". -/

def digitChar : ℕ → Char
  | 0 => '0' | 1 => '1' | 2 => '2' | 3 => '3' | 4 => '4'
  | 5 => '5' | 6 => '6' | 7 => '7' | 8 => '8' | 9 => '9'
  | _ => '0'

/-- Big-endian decimal digits of `m`, with fuel (`f = m + 1` suffices). -/
def decGo : ℕ → ℕ → List Char
  | 0, _ => []
  | f + 1, m => if m < 10 then [digitChar m] else decGo f (m / 10) ++ [digitChar (m % 10)]

def decimalDigits (n : ℕ) : List Char := decGo (n + 1) n

/-- Insert a comma after every third character, counting from the right
(the input is the reversed digit list). -/
def commaGo : ℕ → List Char → List Char
  | _, [] => []
  | k, c :: rest => if k = 3 then ',' :: c :: commaGo 1 rest else c :: commaGo (k + 1) rest

/-- `n` rendered in decimal with standard thousands grouping. -/
def renderGrouped (n : ℕ) : String :=
  String.mk (commaGo 0 (decimalDigits n).reverse).reverse

/-- The character properties every rendered digit enjoys. -/
def goodDigit (c : Char) : Prop :=
  c.isDigit = true ∧ Char.toLower c = c ∧ ¬c = ',' ∧ ¬c = '.' ∧
  pySpace c = false ∧ isDigitDot c = true

def c1Payload : Payload :=
  ⟨some ["2500000"], none, some ["Like: 100 people", "Love: 50 people"], none, none, none⟩

def c2Payload : Payload :=
  ⟨none, none, none, some ["12", "1.2K"], none, some "Great post 45 comments today"⟩

def c4Payload : Payload :=
  ⟨some ["375"], none, none, some ["3"], none, some "only 2 shares today"⟩

def c5Payload : Payload := ⟨some ["375"], none, none, none, none, none⟩

def hugeCount : String := String.mk ('1' :: List.replicate 400 '0')

def c6Payload : Payload := ⟨some [hugeCount], none, none, none, none, none⟩

def c7Payload : Payload := ⟨some ["5"], some "7", none, none, none, none⟩

def emptyPayload : Payload := ⟨none, none, none, none, none, none⟩

/-! ### Basic lemmas about the normalizer and the loops -/

theorem dblToInt_nonneg {d : Dbl} {v : ℤ} (h : dblToInt d = some v) : 0 ≤ v := by
  cases d with
  | inf => exact absurd h (by simp [dblToInt])
  | finite n e =>
    simp only [dblToInt, Option.some.injEq] at h
    rw [← h]
    exact Int.natCast_nonneg _

theorem parse_num_nonneg {s : String} {v : ℤ} (h : parse_num s = some v) : 0 ≤ v := by
  simp only [parse_num] at h
  split at h
  · exact dblToInt_nonneg h
  · simp only [Option.some.injEq] at h
    subst h
    split <;> omega

theorem parseAll_eq_filterMap :
    ∀ {ts : List String} {vs : List ℤ}, parseAll ts = some vs →
      ts.filterMap parse_num = vs := by
  intro ts
  induction ts with
  | nil => intro vs h; simp only [parseAll, Option.some.injEq] at h; simp [← h]
  | cons t ts ih =>
    intro vs h
    simp only [parseAll] at h
    cases hp : parse_num t with
    | none => rw [hp] at h; exact absurd h (by simp)
    | some v =>
      rw [hp] at h
      cases hq : parseAll ts with
      | none => rw [hq] at h; exact absurd h (by simp)
      | some ws =>
        rw [hq] at h
        simp only [Option.some.injEq] at h
        simp [List.filterMap_cons, hp, ih hq, ← h]

theorem parseAll_mem_nonneg {ts : List String} {vs : List ℤ}
    (h : parseAll ts = some vs) : ∀ v ∈ vs, 0 ≤ v := by
  intro v hv
  rw [← parseAll_eq_filterMap h] at hv
  obtain ⟨s, _, hs⟩ := List.mem_filterMap.mp hv
  exact parse_num_nonneg hs

theorem parseAll_ne_nil {ts : List String} {vs : List ℤ}
    (hts : ts ≠ []) (h : parseAll ts = some vs) : vs ≠ [] := by
  cases ts with
  | nil => exact absurd rfl hts
  | cons t ts =>
    simp only [parseAll] at h
    cases hp : parse_num t <;> rw [hp] at h
    · exact absurd h (by simp)
    · cases hq : parseAll ts <;> rw [hq] at h
      · exact absurd h (by simp)
      · simp only [Option.some.injEq] at h
        simp [← h]

/-- The initial value is a lower bound of a `foldl max`. -/
theorem foldl_max_init : ∀ (l : List ℤ) (a : ℤ), a ≤ l.foldl max a := by
  intro l
  induction l with
  | nil => intro a; simp
  | cons x l ih => intro a; exact le_trans (le_max_left a x) (ih (max a x))

/-- `foldl max 0` over a list of positive values is its maximum (0 if empty). -/
theorem foldl_max_pos {l : List ℤ} (h : ∀ v ∈ l, 0 < v) :
    l.foldl max 0 = l.max?.getD 0 := by
  cases l with
  | nil => rfl
  | cons x l =>
    have hx : max 0 x = x := max_eq_right (le_of_lt (h x (by simp)))
    rw [List.max?_cons', List.foldl_cons, hx]
    rfl

/-- `pyMaxList` is `max?` with default 0. -/
theorem pyMaxList_eq_max? (l : List ℤ) : pyMaxList l = l.max?.getD 0 := by
  cases l with
  | nil => rfl
  | cons x l => rw [List.max?_cons']; rfl

theorem pyMaxList_nonneg {l : List ℤ} (h : ∀ v ∈ l, 0 ≤ v) : 0 ≤ pyMaxList l := by
  cases l with
  | nil => simp [pyMaxList]
  | cons x l =>
    exact le_trans (h x (by simp)) (foldl_max_init l x)

/-- The per-candidate update of the aggregate loop is a conditional `max`. -/
theorem aggStep_eq_max (v acc : ℤ) :
    aggStep v acc = if inRange v then max acc v else acc := by
  simp only [aggStep, inRange, max_def, decide_eq_true_eq]
  split_ifs <;> omega

/-- The per-candidate update is idempotent. -/
theorem aggStep_idem (v acc : ℤ) : aggStep v (aggStep v acc) = aggStep v acc := by
  simp only [aggStep]
  split_ifs <;> omega

/-- The aggregate loop computes a `foldl max` over the inRange values. -/
theorem aggLoop_eq :
    ∀ (cs : List String) (acc : ℤ),
      aggLoop cs acc = (parseAll cs).map (fun vs => (vs.filter inRange).foldl max acc) := by
  intro cs
  induction cs with
  | nil => intro acc; rfl
  | cons c cs ih =>
    intro acc
    cases hp : parse_num c with
    | none => simp [aggLoop, parseAll, hp]
    | some v =>
      cases hq : parseAll cs with
      | none =>
        have hcs := ih (aggStep v acc)
        rw [hq] at hcs
        simp [aggLoop, parseAll, hp, hq, hcs]
      | some vs =>
        have hcs := ih (aggStep v acc)
        rw [hq] at hcs
        simp only [Option.map_some'] at hcs
        simp only [aggLoop, parseAll, hp, hq, hcs, Option.map_some', Option.some.injEq]
        rw [aggStep_eq_max]
        by_cases hv : inRange v
        · simp [List.filter_cons, hv]
        · simp [List.filter_cons, hv]

/-- Appending candidates extends the aggregate loop monadically. -/
theorem aggLoop_append :
    ∀ (xs ys : List String) (acc : ℤ),
      aggLoop (xs ++ ys) acc = (aggLoop xs acc).bind (fun a => aggLoop ys a) := by
  intro xs
  induction xs with
  | nil => intro ys acc; rfl
  | cons x xs ih =>
    intro ys acc
    simp only [List.cons_append, aggLoop]
    cases parse_num x with
    | none => rfl
    | some v => exact ih ys (aggStep v acc)

/-- Scanning the same candidate twice in a row changes nothing: the second
pass cannot beat the first. -/
theorem aggLoop_pair (x : String) (acc : ℤ) :
    aggLoop [x, x] acc = aggLoop [x] acc := by
  cases hp : parse_num x with
  | none => simp [aggLoop, hp]
  | some v => simp [aggLoop, hp, aggStep_idem]

/-- The breakdown loop computes the running sum of matched labels. -/
theorem sumLoop_eq :
    ∀ (ls : List String) (acc S : ℤ), sumLoop ls acc = some S →
      S = acc + (ls.filterMap itemVal).sum := by
  intro ls
  induction ls with
  | nil =>
    intro acc S h
    simp only [sumLoop, Option.some.injEq] at h
    simp [← h]
  | cons l ls ih =>
    intro acc S h
    simp only [sumLoop] at h
    cases hs : searchPeople l.toList with
    | none =>
      rw [hs] at h
      replace h : sumLoop ls acc = some S := h
      have hv : itemVal l = none := by unfold itemVal; rw [hs]; rfl
      rw [ih acc S h]
      simp [List.filterMap_cons, hv]
    | some g =>
      rw [hs] at h
      replace h : (match parse_num (String.mk g) with
                   | none => (none : Option ℤ)
                   | some v => sumLoop ls (acc + v)) = some S := h
      cases hp : parse_num (String.mk g) with
      | none =>
        rw [hp] at h
        exact absurd h (by simp)
      | some v =>
        rw [hp] at h
        replace h : sumLoop ls (acc + v) = some S := h
        have hv : itemVal l = some v := by unfold itemVal; rw [hs]; exact hp
        rw [ih (acc + v) S h]
        simp only [List.filterMap_cons, hv, List.sum_cons]
        ring

/-- Every value contributed by an itemized label is nonnegative. -/
theorem itemVal_nonneg {l : String} {v : ℤ} (h : itemVal l = some v) : 0 ≤ v := by
  unfold itemVal at h
  cases hs : searchPeople l.toList <;> rw [hs] at h
  · exact absurd h (by simp)
  · exact parse_num_nonneg h

/-- Values produced by the breakdown loop are nonnegative. -/
theorem sumLoop_nonneg {ls : List String} {acc S : ℤ}
    (ha : 0 ≤ acc) (h : sumLoop ls acc = some S) : 0 ≤ S := by
  rw [sumLoop_eq ls acc S h]
  have hsum : 0 ≤ (ls.filterMap itemVal).sum := by
    apply List.sum_nonneg
    intro v hv
    obtain ⟨l, _, hl⟩ := List.mem_filterMap.mp hv
    exact itemVal_nonneg hl
  omega

/-- What `resolveTagged` returns on success: the spec-side maximum, and it
is nonnegative. -/
theorem resolveTagged_eq {ts : List String} {w : List Char} {ft : String} {C : ℤ}
    (h : resolveTagged ts w ft = some C) :
    C = specTagged ts w ft ∧ 0 ≤ C := by
  unfold resolveTagged at h
  unfold specTagged
  by_cases hts : ts ≠ []
  · rw [if_pos hts] at h ⊢
    cases hq : parseAll ts with
    | none => rw [hq] at h; exact absurd h (by simp)
    | some vs =>
      rw [hq] at h
      simp only [Option.map_some', Option.some.injEq] at h
      subst h
      exact ⟨by rw [pyMaxList_eq_max?, parseAll_eq_filterMap hq],
             pyMaxList_nonneg (parseAll_mem_nonneg hq)⟩
  · rw [if_neg hts] at h ⊢
    cases hq : parseAll ((findAll w ft.toList).map String.mk) with
    | none => rw [hq] at h; exact absurd h (by simp)
    | some vs =>
      rw [hq] at h
      simp only [Option.map_some', Option.some.injEq] at h
      subst h
      exact ⟨by rw [pyMaxList_eq_max?, parseAll_eq_filterMap hq],
             pyMaxList_nonneg (parseAll_mem_nonneg hq)⟩

/-- The candidate list built by the code (`candidates`, after the optional
`append`) is the spec's aggregate candidate list. -/
theorem candList_eq (p : Payload) :
    (if pyGetStr p.total_reactions_text ≠ "" then
       pyGetList p.total_reactions_candidates ++ [pyGetStr p.total_reactions_text]
     else pyGetList p.total_reactions_candidates) = specCandidates p := by
  unfold specCandidates
  by_cases hp : pyGetStr p.total_reactions_text ≠ ""
  · rw [if_pos hp, if_pos hp]
  · rw [if_neg hp, if_neg hp, List.append_nil]

/-- What the aggregate loop computes on success: the spec's
`aggregateValue`. -/
theorem aggLoop_spec {p : Payload} {A : ℤ}
    (hA : aggLoop (if pyGetStr p.total_reactions_text ≠ "" then
       pyGetList p.total_reactions_candidates ++ [pyGetStr p.total_reactions_text]
     else pyGetList p.total_reactions_candidates) 0 = some A) :
    A = specAggregateValue p := by
  rw [candList_eq, aggLoop_eq] at hA
  cases hq : parseAll (specCandidates p) with
  | none => rw [hq] at hA; exact absurd hA (by simp)
  | some vs =>
    rw [hq] at hA
    simp only [Option.map_some', Option.some.injEq] at hA
    unfold specAggregateValue
    rw [parseAll_eq_filterMap hq, ← hA]
    apply foldl_max_pos
    intro v hv
    have := (List.mem_filter.mp hv).2
    simp only [inRange, decide_eq_true_eq] at this
    exact this.1

/-- Workhorse: on success, each field of the resolver's output record is
the spec-side resolution of the corresponding metric. -/
theorem extract_spec {p : Payload} {m : Metrics}
    (h : extract_from_dom_payload p = some m) :
    m.likes = (if 0 < specAggregateValue p then specAggregateValue p else specItemizedSum p) ∧
    m.comments = specTagged (pyGetList p.comment_texts) wordComment (pyGetStr p.full_text) ∧
    m.shares = specTagged (pyGetList p.share_texts) wordShare (pyGetStr p.full_text) ∧
    m.total = m.likes + m.comments + m.shares ∧
    0 ≤ m.likes ∧ 0 ≤ m.comments ∧ 0 ≤ m.shares := by
  simp only [extract_from_dom_payload, extractCore] at h
  rcases Option.bind_eq_some.mp h with ⟨A, hA, h⟩
  rcases Option.bind_eq_some.mp h with ⟨S, hS, h⟩
  rcases Option.bind_eq_some.mp h with ⟨C, hC, h⟩
  rcases Option.bind_eq_some.mp h with ⟨Sh, hSh, h⟩
  simp only [Option.some.injEq] at h
  subst h
  have hAspec : A = specAggregateValue p := aggLoop_spec hA
  have hSspec : S = specItemizedSum p := by
    have := sumLoop_eq _ _ _ hS
    rw [this, zero_add]
    rfl
  have hCspec := resolveTagged_eq hC
  have hShspec := resolveTagged_eq hSh
  have hSnn : 0 ≤ S := sumLoop_nonneg le_rfl hS
  refine ⟨?_, hCspec.1, hShspec.1, rfl, ?_, hCspec.2, hShspec.2⟩
  · show (if 0 < A then A else S) = _
    rw [hAspec, hSspec]
  · show 0 ≤ (if 0 < A then A else S)
    by_cases h0 : 0 < A
    · rw [if_pos h0]; omega
    · rw [if_neg h0]; exact hSnn

/-! ### Character-level facts used by the fallback and round-trip claims -/

theorem uint32_le_iff {a b : UInt32} : a ≤ b ↔ a.toNat ≤ b.toNat := by
  rw [UInt32.le_def, BitVec.le_def]
  exact Iff.rfl

theorem char_isDigit_iff (c : Char) : c.isDigit = true ↔ 48 ≤ c.toNat ∧ c.toNat ≤ 57 := by
  simp only [Char.isDigit, ge_iff_le, Bool.and_eq_true, decide_eq_true_eq, uint32_le_iff]
  exact Iff.rfl

theorem toNat_ofNat_valid {n : ℕ} (h : Nat.isValidChar n) : (Char.ofNat n).toNat = n := by
  unfold Char.ofNat
  rw [dif_pos h]
  rfl

theorem toLower_of_isDigit {c : Char} (h : c.isDigit = true) : Char.toLower c = c := by
  have hn := (char_isDigit_iff c).mp h
  simp only [Char.toLower]
  rw [if_neg (by omega)]

theorem isDigit_toLower (c : Char) : (Char.toLower c).isDigit = c.isDigit := by
  simp only [Char.toLower]
  split
  · rename_i h
    have hv : Nat.isValidChar (c.toNat + 32) := Or.inl (by omega)
    have h1 : (Char.ofNat (c.toNat + 32)).toNat = c.toNat + 32 := toNat_ofNat_valid hv
    have h2 : (Char.ofNat (c.toNat + 32)).isDigit = false := by
      by_contra hd
      rw [Bool.not_eq_false] at hd
      have := (char_isDigit_iff _).mp hd
      omega
    have h3 : c.isDigit = false := by
      by_contra hd
      rw [Bool.not_eq_false] at hd
      have := (char_isDigit_iff c).mp hd
      omega
    rw [h2, h3]
  · rfl

theorem filter_digit_map_toLower (l : List Char) :
    (l.map Char.toLower).filter Char.isDigit = l.filter Char.isDigit := by
  induction l with
  | nil => rfl
  | cons c l ih =>
    simp only [List.map_cons, List.filter_cons, isDigit_toLower]
    cases hd : c.isDigit with
    | false => simpa [hd] using ih
    | true => simpa [hd, toLower_of_isDigit hd] using ih

theorem filter_digit_filter_comma (l : List Char) :
    ((l.filter (fun c => c ≠ ',')).filter Char.isDigit) = l.filter Char.isDigit := by
  induction l with
  | nil => rfl
  | cons c l ih =>
    by_cases hc : c = ','
    · subst hc
      simpa [List.filter_cons] using ih
    · cases hd : Char.isDigit c with
      | false => simpa [List.filter_cons, hc, hd] using ih
      | true => simpa [List.filter_cons, hc, hd] using ih

theorem space_not_digit {c : Char} (h : pySpace c = true) : c.isDigit = false := by
  simp only [pySpace, Bool.or_eq_true, decide_eq_true_eq] at h
  rcases h with ((((h | h) | h) | h) | h) | h <;> subst h <;> rfl

theorem filter_digit_dropWhile_space (l : List Char) :
    (l.dropWhile pySpace).filter Char.isDigit = l.filter Char.isDigit := by
  induction l with
  | nil => rfl
  | cons c l ih =>
    cases hp : pySpace c with
    | false => simp [List.dropWhile_cons, hp]
    | true => simp [List.dropWhile_cons, hp, ih, List.filter_cons, space_not_digit hp]

theorem filter_digit_pyStrip (l : List Char) :
    (pyStrip l).filter Char.isDigit = l.filter Char.isDigit := by
  unfold pyStrip
  rw [List.filter_reverse, filter_digit_dropWhile_space, List.filter_reverse,
    filter_digit_dropWhile_space, List.reverse_reverse]

/-- Cleaning (strip, remove commas, lower-case) preserves the digit run. -/
theorem pyClean_digits (s : String) :
    (pyClean s).filter Char.isDigit = s.toList.filter Char.isDigit := by
  unfold pyClean
  rw [filter_digit_map_toLower, filter_digit_filter_comma, filter_digit_pyStrip]

/-! ### Claim theorems -/

/-- C1: for every payload the resolver returns on, `likes` follows the fixed
precedence policy: `aggregateValue` is the largest normalized candidate
value `v` with `0 < v < 1_000_000` over `aggregateReactionCandidates` with
`aggregateReactionPrimary` (when present and non-empty) appended (values
`≥ 1_000_000` are discarded, not clamped); if `aggregateValue > 0` then
`likes = aggregateValue`, otherwise `likes = itemizedSum`, the sum of the
normalized counts of the itemized labels containing a `: <count> people`
phrase. -/
theorem likes_resolution_policy (p : Payload) (m : Metrics)
    (h : extract_from_dom_payload p = some m) :
    m.likes = if 0 < specAggregateValue p then specAggregateValue p
              else specItemizedSum p :=
  (extract_spec h).1

/-- C1 witness: an implausible aggregate (`2500000 ≥ 1_000_000`) is
discarded and the itemized sum 150 wins, as in the spec's example. -/
theorem likes_resolution_policy_witness :
    extract_from_dom_payload c1Payload = some ⟨150, 0, 0, 150⟩ ∧
    (Metrics.mk 150 0 0 150).likes =
      (if 0 < specAggregateValue c1Payload then specAggregateValue c1Payload
       else specItemizedSum c1Payload) :=
  ⟨by decide, likes_resolution_policy c1Payload ⟨150, 0, 0, 150⟩ (by decide)⟩

/-- C2: for every payload the resolver returns on, `comments` is the
maximum of the normalized `commentCountTexts` when any are present and
otherwise the maximum (0 if none) over the `<count> comment(s)` matches in
`fullText`; `shares` follows the identical policy with `shareCountTexts`
and `share(s)`. -/
theorem comments_shares_resolution (p : Payload) (m : Metrics)
    (h : extract_from_dom_payload p = some m) :
    m.comments = specTagged (pyGetList p.comment_texts) wordComment (pyGetStr p.full_text) ∧
    m.shares = specTagged (pyGetList p.share_texts) wordShare (pyGetStr p.full_text) :=
  ⟨(extract_spec h).2.1, (extract_spec h).2.2.1⟩

/-- C2 witness: duplicate tagged readings `["12", "1.2K"]` resolve to the
maximum 1200; absent share texts fall back to the free-text scan (which
finds no share match here). -/
theorem comments_shares_resolution_witness :
    extract_from_dom_payload c2Payload = some ⟨0, 1200, 0, 1200⟩ ∧
    ((Metrics.mk 0 1200 0 1200).comments =
       specTagged (pyGetList c2Payload.comment_texts) wordComment (pyGetStr c2Payload.full_text) ∧
     (Metrics.mk 0 1200 0 1200).shares =
       specTagged (pyGetList c2Payload.share_texts) wordShare (pyGetStr c2Payload.full_text)) :=
  ⟨by decide, comments_shares_resolution c2Payload ⟨0, 1200, 0, 1200⟩ (by decide)⟩

/-- C3: the Numeric Normalizer meets the spec's reference values, and on
every string rejected by the mantissa pattern it returns the integer
obtained by stripping every non-digit character from the original string
and parsing the remaining digit run (0 when no digit remains). -/
theorem normalizer_reference_values (s : String) (h : ¬ regexMatches s) :
    parse_num "803" = some 803 ∧ parse_num "2.3K" = some 2300 ∧
    parse_num "1.1M" = some 1100000 ∧ parse_num "1,234" = some 1234 ∧
    parse_num "" = some 0 ∧ parse_num s = some (digitStrip s) := by
  refine ⟨by decide, by decide, by decide, by decide, by decide, ?_⟩
  unfold regexMatches at h
  simp only [parse_num]
  rw [if_neg h]
  unfold digitStrip
  rw [← pyClean_digits]

/-- C3 witness at the spec's own noisy example, whose digit-strip value
is 32. -/
theorem normalizer_reference_values_witness :
    ¬ regexMatches "≈ 3.2K views" ∧
    (parse_num "803" = some 803 ∧ parse_num "2.3K" = some 2300 ∧
     parse_num "1.1M" = some 1100000 ∧ parse_num "1,234" = some 1234 ∧
     parse_num "" = some 0 ∧
     parse_num "≈ 3.2K views" = some (digitStrip "≈ 3.2K views")) :=
  ⟨by decide, normalizer_reference_values "≈ 3.2K views" (by decide)⟩

/-- C4: every record the resolver returns satisfies the data-model
invariant: the three metrics and the total are nonnegative and `total` is
recomputed as exactly `likes + comments + shares`. -/
theorem metrics_invariant (p : Payload) (m : Metrics)
    (h : extract_from_dom_payload p = some m) :
    0 ≤ m.likes ∧ 0 ≤ m.comments ∧ 0 ≤ m.shares ∧ 0 ≤ m.total ∧
    m.total = m.likes + m.comments + m.shares := by
  obtain ⟨_, _, _, ht, hl, hc, hs⟩ := extract_spec h
  exact ⟨hl, hc, hs, by omega, ht⟩

/-- C4 witness on a payload exercising all three metrics. -/
theorem metrics_invariant_witness :
    extract_from_dom_payload c4Payload = some ⟨375, 3, 2, 380⟩ ∧
    (0 ≤ (Metrics.mk 375 3 2 380).likes ∧ 0 ≤ (Metrics.mk 375 3 2 380).comments ∧
     0 ≤ (Metrics.mk 375 3 2 380).shares ∧ 0 ≤ (Metrics.mk 375 3 2 380).total ∧
     (Metrics.mk 375 3 2 380).total =
       (Metrics.mk 375 3 2 380).likes + (Metrics.mk 375 3 2 380).comments +
         (Metrics.mk 375 3 2 380).shares) :=
  ⟨by decide, metrics_invariant c4Payload ⟨375, 3, 2, 380⟩ (by decide)⟩

/-- C5: on the success path of `scrape_post` the status is
`"Could not detect engagement"` (the spec's `NoSignal`) exactly when
`total = 0`, and `"OK"` exactly when `total > 0`, equivalently when at
least one metric is positive; no other status occurs on this path. -/
theorem status_success_partition (p : Payload) (r : ScrapeResult)
    (h : (scrape_post (Except.ok p)).1 = some r) :
    (r.status = "OK" ∨ r.status = "Could not detect engagement") ∧
    (r.status = "Could not detect engagement" ↔ r.total = 0) ∧
    (r.status = "OK" ↔ 0 < r.total) ∧
    (r.status = "OK" ↔ (0 < r.likes ∨ 0 < r.comments ∨ 0 < r.shares)) := by
  replace h : (match extract_from_dom_payload p with
               | none => ((none : Option ScrapeResult), 1)
               | some m =>
                 (some (ScrapeResult.mk m.likes m.comments m.shares m.total
                   (if m.total = 0 then "Could not detect engagement" else "OK")), 1)).1
      = some r := h
  cases hm : extract_from_dom_payload p with
  | none =>
    rw [hm] at h
    exact absurd h (by simp)
  | some m =>
    rw [hm] at h
    replace h : some (ScrapeResult.mk m.likes m.comments m.shares m.total
        (if m.total = 0 then "Could not detect engagement" else "OK")) = some r := h
    simp only [Option.some.injEq] at h
    subst h
    dsimp only
    obtain ⟨_, _, _, ht, hl, hc, hs⟩ := extract_spec hm
    by_cases h0 : m.total = 0
    · rw [if_pos h0]
      refine ⟨Or.inr rfl,
        ⟨fun _ => h0, fun _ => rfl⟩,
        ⟨fun hq => absurd hq (by decide), fun hq => absurd hq (by omega)⟩,
        ⟨fun hq => absurd hq (by decide), fun hq => ?_⟩⟩
      exfalso
      rcases hq with hq | hq | hq <;> omega
    · rw [if_neg h0]
      exact ⟨Or.inl rfl,
        ⟨fun hq => absurd hq (by decide), fun hq => absurd hq h0⟩,
        ⟨fun _ => by omega, fun _ => rfl⟩,
        ⟨fun _ => by omega, fun _ => rfl⟩⟩

/-- C5 witness on a payload with one positive metric. -/
theorem status_success_partition_witness :
    (scrape_post (Except.ok c5Payload)).1 = some ⟨375, 0, 0, 375, "OK"⟩ ∧
    (((ScrapeResult.mk 375 0 0 375 "OK").status = "OK" ∨
      (ScrapeResult.mk 375 0 0 375 "OK").status = "Could not detect engagement") ∧
     ((ScrapeResult.mk 375 0 0 375 "OK").status = "Could not detect engagement" ↔
       (ScrapeResult.mk 375 0 0 375 "OK").total = 0) ∧
     ((ScrapeResult.mk 375 0 0 375 "OK").status = "OK" ↔
       0 < (ScrapeResult.mk 375 0 0 375 "OK").total) ∧
     ((ScrapeResult.mk 375 0 0 375 "OK").status = "OK" ↔
       (0 < (ScrapeResult.mk 375 0 0 375 "OK").likes ∨
        0 < (ScrapeResult.mk 375 0 0 375 "OK").comments ∨
        0 < (ScrapeResult.mk 375 0 0 375 "OK").shares))) :=
  ⟨by decide, status_success_partition c5Payload ⟨375, 0, 0, 375, "OK"⟩ (by decide)⟩

/-- C6 fails on the code: `parse_num` matches the 401-digit mantissa,
`float()` overflows to infinity, and `int(inf)` raises `OverflowError`, so
the normalizer — and with it the resolver — raises (`none`), contradicting
the never-raises contract. -/
theorem normalizer_overflow_raises :
    parse_num hugeCount = none ∧ extract_from_dom_payload c6Payload = none :=
  ⟨by decide, by decide⟩

/-- C7 counterexample: with a non-empty candidate list and a non-empty
primary hint, `candidates.append(primary_text)` mutates the payload's
`total_reactions_candidates` in place, so the payload is not unchanged. -/
theorem resolver_mutation_counterexample : extract_after c7Payload ≠ c7Payload := by
  decide

/-- C7 (amended): the resolver appends the primary hint in place to the
payload's candidate list whenever both are non-empty (and leaves the
payload unchanged otherwise), but re-running the resolver on the mutated
payload still yields the same result, because the duplicated candidate
cannot change the running maximum. -/
theorem resolver_mutation_characterized (p : Payload) :
    extract_from_dom_payload (extract_after p) = extract_from_dom_payload p ∧
    (extract_after p = p ∨
      ∃ l, p.total_reactions_candidates = some l ∧ l ≠ [] ∧
        pyGetStr p.total_reactions_text ≠ "" ∧
        extract_after p =
          { p with total_reactions_candidates := some (l ++ [pyGetStr p.total_reactions_text]) }) := by
  cases hcase : p.total_reactions_candidates with
  | none =>
    have he : extract_after p = p := by unfold extract_after; rw [hcase]
    rw [he]
    exact ⟨rfl, Or.inl rfl⟩
  | some l =>
    by_cases hcond : l ≠ [] ∧ pyGetStr p.total_reactions_text ≠ ""
    · have he : extract_after p =
          { p with total_reactions_candidates := some (l ++ [pyGetStr p.total_reactions_text]) } := by
        unfold extract_after
        rw [hcase]
        show (if l ≠ [] ∧ pyGetStr p.total_reactions_text ≠ "" then
              { p with total_reactions_candidates := some (l ++ [pyGetStr p.total_reactions_text]) }
            else p) = _
        rw [if_pos hcond]
      refine ⟨?_, Or.inr ⟨l, rfl, hcond.1, hcond.2, he⟩⟩
      rw [he]
      have hagg : aggLoop ((l ++ [pyGetStr p.total_reactions_text]) ++ [pyGetStr p.total_reactions_text]) 0
          = aggLoop (l ++ [pyGetStr p.total_reactions_text]) 0 := by
        rw [List.append_assoc, aggLoop_append, aggLoop_append]
        cases hb : aggLoop l 0 with
        | none => rfl
        | some b => exact aggLoop_pair (pyGetStr p.total_reactions_text) b
      show extractCore
          (if pyGetStr p.total_reactions_text ≠ "" then
            (l ++ [pyGetStr p.total_reactions_text]) ++ [pyGetStr p.total_reactions_text]
          else (l ++ [pyGetStr p.total_reactions_text])) p =
        extract_from_dom_payload p
      rw [if_pos hcond.2]
      unfold extract_from_dom_payload
      rw [hcase, if_pos hcond.2]
      show extractCore ((l ++ [pyGetStr p.total_reactions_text]) ++ [pyGetStr p.total_reactions_text]) p
          = extractCore (l ++ [pyGetStr p.total_reactions_text]) p
      unfold extractCore
      rw [hagg]
    · have he : extract_after p = p := by
        unfold extract_after
        rw [hcase]
        show (if l ≠ [] ∧ pyGetStr p.total_reactions_text ≠ "" then
              { p with total_reactions_candidates := some (l ++ [pyGetStr p.total_reactions_text]) }
            else p) = p
        rw [if_neg hcond]
      rw [he]
      exact ⟨rfl, Or.inl rfl⟩

/-- C9: when collection fails with reason `e`, `scrape_post` returns the
all-zero record with the `CollectionFailed` status `"Browser error: " ++ e`
and the resolver is invoked zero times. -/
theorem collection_failure_bypass (e : String) :
    scrape_post (Except.error e) =
      (some ⟨0, 0, 0, 0, "Browser error: " ++ e⟩, 0) := rfl

/-- C10: a payload field that is absent (or `None`) resolves exactly like
the empty list (empty string for `fullText`), and the empty payload
resolves to the all-zero record. -/
theorem missing_field_tolerance (p : Payload) :
    extract_from_dom_payload { p with total_reactions_candidates := none } =
      extract_from_dom_payload { p with total_reactions_candidates := some [] } ∧
    extract_from_dom_payload { p with total_reactions_text := none } =
      extract_from_dom_payload { p with total_reactions_text := some "" } ∧
    extract_from_dom_payload { p with reaction_labels := none } =
      extract_from_dom_payload { p with reaction_labels := some [] } ∧
    extract_from_dom_payload { p with comment_texts := none } =
      extract_from_dom_payload { p with comment_texts := some [] } ∧
    extract_from_dom_payload { p with share_texts := none } =
      extract_from_dom_payload { p with share_texts := some [] } ∧
    extract_from_dom_payload { p with full_text := none } =
      extract_from_dom_payload { p with full_text := some "" } ∧
    extract_from_dom_payload emptyPayload = some ⟨0, 0, 0, 0⟩ :=
  ⟨rfl, rfl, rfl, rfl, rfl, rfl, by decide⟩

/-! ### Facts about the decimal rendering (for the round-trip claim) -/

theorem digitChar_good {m : ℕ} (h : m < 10) : goodDigit (digitChar m) := by
  interval_cases m <;>
    exact ⟨by decide, by decide, by decide, by decide, by decide, by decide⟩

theorem digitVal_digitChar {m : ℕ} (h : m < 10) : digitVal (digitChar m) = m := by
  interval_cases m <;> rfl

theorem decGo_good : ∀ (f m : ℕ), ∀ c ∈ decGo f m, goodDigit c := by
  intro f
  induction f with
  | zero => intro m c hc; simp [decGo] at hc
  | succ f ih =>
    intro m c hc
    simp only [decGo] at hc
    by_cases hm : m < 10
    · rw [if_pos hm] at hc
      simp only [List.mem_singleton] at hc
      subst hc
      exact digitChar_good hm
    · rw [if_neg hm] at hc
      rw [List.mem_append] at hc
      rcases hc with hc | hc
      · exact ih (m / 10) c hc
      · simp only [List.mem_singleton] at hc
        subst hc
        exact digitChar_good (Nat.mod_lt m (by omega))

theorem decGo_ne_nil (f m : ℕ) (hf : 0 < f) : decGo f m ≠ [] := by
  cases f with
  | zero => omega
  | succ f =>
    simp only [decGo]
    by_cases hm : m < 10
    · rw [if_pos hm]; simp
    · rw [if_neg hm]; simp

theorem natOfDigitChars_append_one (l : List Char) (c : Char) :
    natOfDigitChars (l ++ [c]) = 10 * natOfDigitChars l + digitVal c := by
  simp [natOfDigitChars, List.foldl_append]

theorem decGo_val : ∀ (f m : ℕ), m < 10 ^ f → natOfDigitChars (decGo f m) = m := by
  intro f
  induction f with
  | zero =>
    intro m hm
    have : m = 0 := by simpa using hm
    subst this
    rfl
  | succ f ih =>
    intro m hm
    simp only [decGo]
    by_cases h10 : m < 10
    · rw [if_pos h10]
      have : natOfDigitChars [digitChar m] = digitVal (digitChar m) := by
        simp [natOfDigitChars]
      rw [this, digitVal_digitChar h10]
    · rw [if_neg h10]
      rw [natOfDigitChars_append_one]
      have hdiv : m / 10 < 10 ^ f := by
        rw [pow_succ] at hm
        omega
      rw [ih (m / 10) hdiv, digitVal_digitChar (Nat.mod_lt m (by omega))]
      omega

theorem decimalDigits_val (n : ℕ) : natOfDigitChars (decimalDigits n) = n := by
  apply decGo_val
  calc n < 10 ^ n := Nat.lt_pow_self (by omega) n
    _ ≤ 10 ^ (n + 1) := Nat.pow_le_pow_right (by omega) (by omega)

theorem commaGo_filter : ∀ (l : List Char) (k : ℕ), (∀ c ∈ l, ¬c = ',') →
    (commaGo k l).filter (fun c => c ≠ ',') = l := by
  intro l
  induction l with
  | nil => intro k _; rfl
  | cons c rest ih =>
    intro k hl
    have hc : ¬c = ',' := hl c (by simp)
    have hrest : ∀ x ∈ rest, ¬x = ',' := fun x hx => hl x (by simp [hx])
    simp only [commaGo]
    by_cases hk : k = 3
    · rw [if_pos hk]
      rw [List.filter_cons, List.filter_cons, if_neg (by decide),
        if_pos (decide_eq_true hc), ih 1 hrest]
    · rw [if_neg hk]
      rw [List.filter_cons, if_pos (decide_eq_true hc), ih (k + 1) hrest]

theorem commaGo_nospace : ∀ (l : List Char) (k : ℕ), (∀ c ∈ l, pySpace c = false) →
    ∀ c ∈ commaGo k l, pySpace c = false := by
  intro l
  induction l with
  | nil => intro k _ c hc; simp [commaGo] at hc
  | cons x rest ih =>
    intro k hl c hc
    have hx : pySpace x = false := hl x (by simp)
    have hrest : ∀ y ∈ rest, pySpace y = false := fun y hy => hl y (by simp [hy])
    simp only [commaGo] at hc
    by_cases hk : k = 3
    · rw [if_pos hk] at hc
      simp only [List.mem_cons] at hc
      rcases hc with hc | hc | hc
      · subst hc; decide
      · subst hc; exact hx
      · exact ih 1 hrest c hc
    · rw [if_neg hk] at hc
      simp only [List.mem_cons] at hc
      rcases hc with hc | hc
      · subst hc; exact hx
      · exact ih (k + 1) hrest c hc

theorem dropWhile_eq_self_of_none {p : Char → Bool} :
    ∀ {l : List Char}, (∀ c ∈ l, p c = false) → l.dropWhile p = l := by
  intro l h
  cases l with
  | nil => rfl
  | cons c rest =>
    rw [List.dropWhile_cons, h c (by simp)]
    simp

theorem pyStrip_eq_self {l : List Char} (h : ∀ c ∈ l, pySpace c = false) :
    pyStrip l = l := by
  unfold pyStrip
  rw [dropWhile_eq_self_of_none h,
    dropWhile_eq_self_of_none (fun c hc => h c (List.mem_reverse.mp hc)),
    List.reverse_reverse]

theorem takeWhile_eq_self_of_all {p : Char → Bool} :
    ∀ {l : List Char}, (∀ c ∈ l, p c = true) → l.takeWhile p = l := by
  intro l
  induction l with
  | nil => intro _; rfl
  | cons c rest ih =>
    intro h
    rw [List.takeWhile_cons, h c (by simp), ih (fun x hx => h x (by simp [hx]))]
    simp

theorem dropWhile_eq_nil_of_all {p : Char → Bool} :
    ∀ {l : List Char}, (∀ c ∈ l, p c = true) → l.dropWhile p = [] := by
  intro l
  induction l with
  | nil => intro _; rfl
  | cons c rest ih =>
    intro h
    rw [List.dropWhile_cons, h c (by simp)]
    simpa using ih (fun x hx => h x (by simp [hx]))

theorem filter_eq_self_of_all {p : Char → Bool} :
    ∀ {l : List Char}, (∀ c ∈ l, p c = true) → l.filter p = l := by
  intro l
  induction l with
  | nil => intro _; rfl
  | cons c rest ih =>
    intro h
    rw [List.filter_cons, if_pos (h c (by simp)), ih (fun x hx => h x (by simp [hx]))]

theorem map_toLower_eq_self {l : List Char} (h : ∀ c ∈ l, Char.toLower c = c) :
    l.map Char.toLower = l := by
  induction l with
  | nil => rfl
  | cons c rest ih =>
    rw [List.map_cons, h c (by simp), ih (fun x hx => h x (by simp [hx]))]

/-- Cleaning the grouped rendering recovers exactly the digit list. -/
theorem pyClean_renderGrouped (n : ℕ) :
    pyClean (renderGrouped n) = decimalDigits n := by
  have hgood : ∀ c ∈ decimalDigits n, goodDigit c := decGo_good (n + 1) n
  have hrevgood : ∀ c ∈ (decimalDigits n).reverse, goodDigit c :=
    fun c hc => hgood c (List.mem_reverse.mp hc)
  have hG : ∀ c ∈ (commaGo 0 (decimalDigits n).reverse).reverse, pySpace c = false := by
    intro c hc
    exact commaGo_nospace _ 0 (fun x hx => (hrevgood x hx).2.2.2.2.1) c (List.mem_reverse.mp hc)
  unfold pyClean renderGrouped
  have htl : (String.mk (commaGo 0 (decimalDigits n).reverse).reverse).toList
      = (commaGo 0 (decimalDigits n).reverse).reverse := rfl
  rw [htl, pyStrip_eq_self hG, List.filter_reverse,
    commaGo_filter _ 0 (fun c hc => (hrevgood c hc).2.2.1), List.reverse_reverse]
  exact map_toLower_eq_self (fun c hc => (hgood c hc).2.1)

/-! ### Binary logarithm bounds and exact rounding of small integers -/

theorem log2go_le : ∀ (f m k : ℕ), m < 2 ^ (k + 1) → log2go f m ≤ k := by
  intro f
  induction f with
  | zero => intro m k _; simp [log2go]
  | succ f ih =>
    intro m k hm
    simp only [log2go]
    by_cases h2 : m < 2
    · rw [if_pos h2]; omega
    · rw [if_neg h2]
      have hk : 1 ≤ k := by
        by_contra hk0
        have hk : k = 0 := by omega
        subst hk
        have : (2 : ℕ) ^ 1 = 2 := by norm_num
        omega
      have hm2 : m / 2 < 2 ^ k := by
        rw [pow_succ] at hm
        omega
      have := ih (m / 2) (k - 1) (by rw [Nat.sub_add_cancel hk]; exact hm2)
      omega

theorem log2go_lower : ∀ (f m : ℕ), 1 ≤ m → m < 2 ^ f → 2 ^ log2go f m ≤ m := by
  intro f
  induction f with
  | zero =>
    intro m h1 h2
    simp only [pow_zero] at h2
    omega
  | succ f ih =>
    intro m h1 h2
    simp only [log2go]
    by_cases hm : m < 2
    · rw [if_pos hm]
      simpa using h1
    · rw [if_neg hm]
      have hd1 : 1 ≤ m / 2 := by omega
      have hd2 : m / 2 < 2 ^ f := by
        rw [pow_succ] at h2
        omega
      have hih := ih (m / 2) hd1 hd2
      rw [pow_succ]
      omega

/-- Integers up to `2 ^ 53` survive the float conversion exactly:
`int(float(str(n))) = n`. -/
theorem roundDec_int {n : ℕ} (h2 : n ≤ 2 ^ 53) :
    dblToInt (roundDec n 1) = some (n : ℤ) := by
  by_cases h0 : n = 0
  · subst h0
    decide
  · have h1 : 1 ≤ n := by omega
    have hlt4000 : n < 2 ^ 4000 :=
      lt_of_le_of_lt h2 (Nat.pow_lt_pow_right (by omega) (by omega))
    have hlow : 2 ^ myLog2 n ≤ n := log2go_lower 4000 n h1 hlt4000
    have hle : myLog2 n ≤ 53 := by
      apply log2go_le 4000 n 53
      have : (2 : ℕ) ^ 53 < 2 ^ 54 := Nat.pow_lt_pow_right (by omega) (by omega)
      omega
    unfold roundDec
    rw [if_neg h0]
    by_cases hc : myLog2 n ≤ 52
    · -- the value is below 2^53, so the scaled significand is exact
      have hb : myLog2 1 = 0 := rfl
      unfold roundPos
      rw [hb]
      simp only [one_mul, pow_zero, mul_one, Nat.cast_zero, sub_zero]
      rw [if_pos hlow]
      have hmax : max ((myLog2 n : ℤ)) (-1022) = (myLog2 n : ℤ) := max_eq_left (by omega)
      rw [hmax]
      have ht1 : Int.toNat ((52 : ℤ) - (myLog2 n : ℤ)) = 52 - myLog2 n := by omega
      have ht2 : Int.toNat ((myLog2 n : ℤ) - (52 : ℤ)) = 0 := by omega
      rw [ht1, ht2]
      simp only [pow_zero, mul_one, one_mul]
      have hrhe : rhe (n * 2 ^ (52 - myLog2 n)) 1 = n * 2 ^ (52 - myLog2 n) := by
        simp [rhe, Nat.mod_one]
      rw [hrhe]
      rw [if_neg (by
        apply not_le.mpr
        calc n * 2 ^ (52 - myLog2 n) ≤ 2 ^ 53 * 2 ^ (52 - myLog2 n) :=
              Nat.mul_le_mul_right _ h2
          _ = 2 ^ (53 + (52 - myLog2 n)) := by rw [pow_add]
          _ < 2 ^ (1024 + (52 - myLog2 n)) :=
              Nat.pow_lt_pow_right (by omega) (by omega))]
      show some (((n * 2 ^ (52 - myLog2 n)) * 2 ^ Int.toNat ((myLog2 n : ℤ) - 52) /
          2 ^ Int.toNat ((52 : ℤ) - (myLog2 n : ℤ)) : ℕ) : ℤ) = some (n : ℤ)
      rw [ht1, ht2]
      simp only [pow_zero, mul_one]
      rw [Nat.mul_div_cancel _ (Nat.pow_pos (by omega))]
    · -- the exponent is 53, forcing n = 2^53, which is even exactly halved
      have ha53 : myLog2 n = 53 := by omega
      have hn : n = 9007199254740992 := by
        rw [ha53] at hlow
        have h53 : (2 : ℕ) ^ 53 = 9007199254740992 := by norm_num
        rw [h53] at hlow
        rw [h53] at h2
        omega
      subst hn
      decide

/-- The digit list of `n` passes the mantissa match with no suffix and no
fractional part. -/
theorem decimalDigits_mantissa (n : ℕ) :
    (decimalDigits n).takeWhile isDigitDot = decimalDigits n ∧
    (decimalDigits n).dropWhile isDigitDot = [] ∧
    (decimalDigits n).dropWhile (fun c => c ≠ '.') = [] ∧
    (decimalDigits n).filter (fun c => c ≠ '.') = decimalDigits n ∧
    mantissaOk (decimalDigits n) = true := by
  have hgood : ∀ c ∈ decimalDigits n, goodDigit c := decGo_good (n + 1) n
  have hne : decimalDigits n ≠ [] := decGo_ne_nil (n + 1) n (by omega)
  have hdotdrop : (decimalDigits n).dropWhile (fun c => c ≠ '.') = [] :=
    dropWhile_eq_nil_of_all (fun c hc => decide_eq_true (hgood c hc).2.2.2.1)
  refine ⟨takeWhile_eq_self_of_all (fun c hc => (hgood c hc).2.2.2.2.2),
    dropWhile_eq_nil_of_all (fun c hc => (hgood c hc).2.2.2.2.2),
    hdotdrop,
    filter_eq_self_of_all (fun c hc => decide_eq_true (hgood c hc).2.2.2.1),
    ?_⟩
  unfold mantissaOk
  rw [hdotdrop]
  cases hL : decimalDigits n with
  | nil => exact absurd hL hne
  | cons _ _ => rfl

/-- C8 (amended): for every `n ≤ 2 ^ 53`, normalizing the comma-grouped
decimal rendering of `n` returns exactly `n`. -/
theorem normalizer_roundtrip_amended (n : ℕ) (h : n ≤ 2 ^ 53) :
    parse_num (renderGrouped n) = some (n : ℤ) := by
  obtain ⟨htake, hdrop, hdotdrop, hdotfilter, hmOk⟩ := decimalDigits_mantissa n
  simp only [parse_num, pyClean_renderGrouped n]
  rw [htake, hdrop]
  simp only [List.dropWhile_nil]
  rw [if_pos (by simp [hmOk])]
  rw [hdotdrop, hdotfilter, decimalDigits_val]
  simp only [List.tail_nil, List.length_nil, pow_zero]
  rw [if_neg (by decide), if_neg (by decide)]
  exact roundDec_int h

/-- C8 counterexample: `2 ^ 53 + 1` is not exactly representable in
binary64, so its grouped rendering normalizes to `2 ^ 53`, not back to
itself. -/
theorem normalizer_roundtrip_counterexample :
    parse_num (renderGrouped 9007199254740993) ≠ some 9007199254740993 := by
  decide

/-- C8 witness at `n = 1234` (rendered `"1,234"`). -/
theorem normalizer_roundtrip_amended_witness :
    1234 ≤ 2 ^ 53 ∧ parse_num (renderGrouped 1234) = some 1234 :=
  ⟨by decide, normalizer_roundtrip_amended 1234 (by decide)⟩

end Scraper
